import Mathlib

/-!
Verification of the pants-gen password generator against its
natural-language specification.

The Rust sources are shallowly embedded: usize is modelled as Nat capped
at USIZE_MAX where the code saturates, fallible functions return Except
or Option, and the thread-local random generator is modelled as an
explicit tape of natural numbers that every theorem quantifies over.
An outer Option layer marks abnormal executions: a result of none models
a Rust panic or an infinite loop, as documented at each definition.
-/

namespace PantsGen

/-- usize::MAX on a 64-bit target (src uses std::usize::MAX as the
open-interval sentinel). -/
def USIZE_MAX : Nat := 2 ^ 64 - 1

/-- usize::saturating_add, used by PasswordSpec::check. -/
def satAdd (a b : Nat) : Nat := min (a + b) USIZE_MAX

/-- Rust char::is_whitespace (the Unicode White_Space property), used by
str::trim and str::trim_start in the parsers. -/
def rustIsWhitespace (c : Char) : Bool :=
  decide (c.toNat = 0x09 ∨ c.toNat = 0x0A ∨ c.toNat = 0x0B ∨ c.toNat = 0x0C ∨
    c.toNat = 0x0D ∨ c.toNat = 0x20 ∨ c.toNat = 0x85 ∨ c.toNat = 0xA0 ∨
    c.toNat = 0x1680 ∨ (0x2000 ≤ c.toNat ∧ c.toNat ≤ 0x200A) ∨
    c.toNat = 0x2028 ∨ c.toNat = 0x2029 ∨ c.toNat = 0x202F ∨
    c.toNat = 0x205F ∨ c.toNat = 0x3000)

/-- str::trim_start: drop leading whitespace. Strings are modelled as
lists of characters throughout. -/
def rustTrimStart (l : List Char) : List Char := l.dropWhile rustIsWhitespace

/-- str::trim: drop leading and trailing whitespace. -/
def rustTrim (l : List Char) : List Char :=
  ((l.dropWhile rustIsWhitespace).reverse.dropWhile rustIsWhitespace).reverse

/-- Numeric value of a run of ASCII digits. -/
def digitsToNat (l : List Char) : Nat := l.foldl (fun a c => 10 * a + (c.toNat - 48)) 0

/-- Rust usize::from_str: an optional leading plus sign followed by a
non-empty run of ASCII digits whose value fits in usize. -/
def parseUsize (l : List Char) : Option Nat :=
  let l2 := match l with
    | '+' :: rest => rest
    | _ => l
  if l2.isEmpty then none
  else if l2.all Char.isDigit then
    let v := digitsToNat l2
    if v ≤ USIZE_MAX then some v else none
  else none

/-- Rust str::len, the UTF-8 byte length of a string. -/
def byteLen (l : List Char) : Nat := (l.map Char.utf8Size).sum

/-- Interval from src/interval.rs: an inclusive count range. -/
structure Interval where
  min : Nat
  max : Nat
deriving DecidableEq

/-- Interval::exactly. -/
def Interval.exactly (size : Nat) : Interval := ⟨size, size⟩

/-- Interval::at_least (max is the usize::MAX sentinel). -/
def Interval.at_least (size : Nat) : Interval := ⟨size, USIZE_MAX⟩

/-- Interval::at_most (min is the usize::MIN sentinel, i.e. 0). -/
def Interval.at_most (size : Nat) : Interval := ⟨0, size⟩

/-- Interval::new, rejecting inverted bounds. -/
def Interval.new (min max : Nat) : Option Interval :=
  if min ≤ max then some ⟨min, max⟩ else none

/-- CharStyle from src/password.rs (identical to Charset from
src/charset.rs): the enumerated character classes. -/
inductive CharStyle where
  | Upper
  | Lower
  | Number
  | Symbol
  | Custom (v : List Char)
deriving DecidableEq

/-- CharStyle::to_charset: resolve a class to its concrete character
list. Upper is ('A'..='Z').collect(), Lower ('a'..='z').collect(),
Number ('1'..='9').collect(), Symbol a fixed literal vec, Custom the
stored vector. -/
def CharStyle.to_charset : CharStyle → List Char
  | .Upper => (List.range 26).map (fun i => Char.ofNat (65 + i))
  | .Lower => (List.range 26).map (fun i => Char.ofNat (97 + i))
  | .Number => (List.range 9).map (fun i => Char.ofNat (49 + i))
  | .Symbol =>
      ['!', '@', '%', '^', '&', '*', '-', '_', '=', '+', ':', ';', ',', '.', '?', '~']
  | .Custom v => v

/-- Choice from src/password.rs: an interval budget paired with a
character class. -/
structure Choice where
  min : Nat
  max : Nat
  chars : CharStyle
deriving DecidableEq

/-- Choice::exactly. -/
def Choice.exactly (count : Nat) (chars : CharStyle) : Choice := ⟨count, count, chars⟩

/-- Choice::at_least. -/
def Choice.at_least (count : Nat) (chars : CharStyle) : Choice := ⟨count, USIZE_MAX, chars⟩

/-- Choice::at_most. -/
def Choice.at_most (count : Nat) (chars : CharStyle) : Choice := ⟨0, count, chars⟩

/-- Choice::from_interval. -/
def Choice.from_interval (interval : Interval) (chars : CharStyle) : Choice :=
  ⟨interval.min, interval.max, chars⟩

/-- Choice::active: the remaining max budget is positive. -/
def Choice.active (c : Choice) : Bool := decide (0 < c.max)

/-- Choice::required: the remaining min budget is positive. -/
def Choice.required (c : Choice) : Bool := decide (0 < c.min)

/-- Choices from src/password.rs: a HashSet of Choice hashed and compared
by the chars field alone, modelled as a list (the quantified list order
stands for the unspecified hash iteration order).
Choices::push is HashSet::replace: the new element is stored and any
stored element with an equal character class is removed. -/
structure Choices where
  choices : List Choice
deriving DecidableEq

/-- Choices::new. -/
def Choices.new : Choices := ⟨[]⟩

/-- Choices::push, i.e. HashSet::replace keyed by the chars field. -/
def Choices.push (cs : Choices) (c : Choice) : Choices :=
  ⟨c :: cs.choices.filter (fun x => x.chars ≠ c.chars)⟩

/-- PasswordSpec from src/password.rs. -/
structure PasswordSpec where
  length : Nat
  choices : Choices
deriving DecidableEq

/-- PasswordSpec::new (length 32, no choices). -/
def PasswordSpec.new : PasswordSpec := ⟨32, Choices.new⟩

/-- PasswordSpec::length builder (named setLength because length is the
field name here). -/
def PasswordSpec.setLength (s : PasswordSpec) (n : Nat) : PasswordSpec := ⟨n, s.choices⟩

/-- PasswordSpec::include (named includeChoice since include is a Lean
keyword). All per-class builder methods (upper, upper_exactly, lower, ...)
delegate to Choices::push exactly like this one. -/
def PasswordSpec.includeChoice (s : PasswordSpec) (c : Choice) : PasswordSpec :=
  ⟨s.length, s.choices.push c⟩

/-- PasswordSpec::upper_exactly. -/
def PasswordSpec.upper_exactly (s : PasswordSpec) (n : Nat) : PasswordSpec :=
  s.includeChoice (Choice.exactly n .Upper)

/-- PasswordSpec::upper. -/
def PasswordSpec.upper (s : PasswordSpec) (i : Interval) : PasswordSpec :=
  s.includeChoice (Choice.from_interval i .Upper)

/-- PasswordSpec::check: saturating sums of mins and maxes must bracket
the target length. -/
def PasswordSpec.check (s : PasswordSpec) : Bool :=
  let mn := s.choices.choices.foldl (fun a c => satAdd a c.min) 0
  let mx := s.choices.choices.foldl (fun a c => satAdd a c.max) 0
  decide (mn ≤ s.length ∧ s.length ≤ mx)

/-- The thread-local random generator, modelled as an infinite tape of
natural numbers with a read position. Theorems quantify over all tapes,
so every statement holds for every possible sequence of random draws. -/
structure Rng where
  tape : Nat → Nat
  pos : Nat

/-- Consume one random value from the tape. -/
def Rng.draw (g : Rng) : Nat × Rng := (g.tape g.pos, ⟨g.tape, g.pos + 1⟩)

/-- SliceRandom::choose: a uniformly random element of a slice, or None
when the slice is empty (in which case no randomness is consumed). The
drawn index is the next tape value reduced mod the length. -/
def chooseFrom (l : List Char) (g : Rng) : Option Char × Rng :=
  if l.isEmpty then (none, g)
  else
    let (r, g2) := g.draw
    (l.get? (r % l.length), g2)

/-- Iterator::next for Choice: when active, decrement min (floored at 0,
matching the guarded decrement) and max, then draw one character from the
resolved charset; when inactive, yield nothing and change no state. -/
def Choice.next (c : Choice) (g : Rng) : Option Char × Choice × Rng :=
  if c.active then
    let (oc, g2) := chooseFrom c.chars.to_charset g
    (oc, ⟨c.min - 1, c.max - 1, c.chars⟩, g2)
  else (none, c, g)

/-- The while-loop of Choice::get_required, recursing on the min budget.
The loop body runs while required() holds; each pass calls next(), which
decrements min exactly when the choice is active. When the choice is
required but not active, next() returns None without touching min, so the
Rust loop spins forever: that state is modelled by the none result. -/
def getRequiredLoop : Nat → Nat → CharStyle → Rng → Option (List Char × Nat × Rng)
  | 0, mx, _, g => some ([], mx, g)
  | m + 1, mx, cs, g =>
      if mx = 0 then none
      else
        let (oc, g2) := chooseFrom cs.to_charset g
        match getRequiredLoop m (mx - 1) cs g2 with
        | none => none
        | some (res, mx2, g3) =>
            some ((match oc with | some ch => ch :: res | none => res), mx2, g3)

/-- Choice::get_required: drain the required minimum, returning the drawn
characters together with the depleted choice. A none result models the
non-terminating execution (min outlives max). -/
def Choice.get_required (c : Choice) (g : Rng) : Option (List Char × Choice × Rng) :=
  (getRequiredLoop c.min c.max c.chars g).map
    (fun t => (t.1, ⟨0, t.2.1, c.chars⟩, t.2.2))

/-- The first for-loop of PasswordSpec::generate: drain every choice's
required minimum in iteration order, accumulating characters and keeping
the depleted choices. -/
def genRequired : List Choice → Rng → Option (List Char × List Choice × Rng)
  | [], g => some ([], [], g)
  | c :: cs, g =>
      match c.get_required g with
      | none => none
      | some (res, c2, g2) =>
          match genRequired cs g2 with
          | none => none
          | some (rest, cs2, g3) => some (res ++ rest, c2 :: cs2, g3)

/-- The fill loop of PasswordSpec::generate: remaining times, pick a
random still-active choice, draw one character from it (the unwrap on a
None draw is a panic, modelled by the none result), and drop the choice
from the pool once inactive. An empty pool skips the iteration. -/
def fillLoop : Nat → List Choice → List Char → Rng → Option (List Char × Rng)
  | 0, _, acc, g => some (acc, g)
  | n + 1, pool, acc, g =>
      if pool.isEmpty then fillLoop n pool acc g
      else
        let (r, g2) := g.draw
        let idx := r % pool.length
        match pool.get? idx with
        | none => none
        | some c =>
            let (oc, c2, g3) := c.next g2
            match oc with
            | none => none
            | some ch =>
                let pool2 := if c2.active then pool.set idx c2 else pool.eraseIdx idx
                fillLoop n pool2 (acc ++ [ch]) g3

/-- SliceRandom::shuffle, modelled as repeatedly extracting the element
at a random index; every theorem only relies on the result being a
permutation of the input, which holds for any uniform shuffle. -/
def shuffleLoop : Nat → List Char → Rng → List Char
  | 0, l, _ => l
  | n + 1, l, g =>
      match l.get? ((g.draw.1) % l.length) with
      | none => []
      | some ch => ch :: shuffleLoop n (l.eraseIdx (g.draw.1 % l.length)) g.draw.2

/-- Shuffle the whole buffer. -/
def shuffle (l : List Char) (g : Rng) : List Char := shuffleLoop l.length l g

/-- PasswordSpec::generate. The outer Option marks abnormal executions
(panic on unwrap, or the non-terminating required-drain); the inner
Option is the function's own Option<String> result. -/
def PasswordSpec.generate (s : PasswordSpec) (g : Rng) : Option (Option (List Char)) :=
  if s.check then
    match genRequired s.choices.choices g with
    | none => none
    | some (chars, cs2, g2) =>
        let pool := cs2.filter Choice.active
        let remaining := s.length - chars.length
        match fillLoop remaining pool chars g2 with
        | none => none
        | some (chars2, g3) => some (some (shuffle chars2 g3))
  else some none

/-- IntervalParseError from src/interval.rs. The ImproperFormat payload
is the trimmed input (the code formats the trimmed s into the error). -/
inductive IntervalParseError where
  | BadBounds (a b : Nat)
  | ImproperFormat (s : List Char)
deriving DecidableEq

/-- The Style state of the scanner inside Interval::from_str. -/
inductive IStyle where
  | exact
  | atLeast
  | atMost
  | range
deriving DecidableEq

/-- The character scan of Interval::from_str: i is the char index from
enumerate(), B the byte length s.len() of the trimmed input (the code
compares the char index i + 1 against the byte length, which only agree
on ASCII input). A digit extends the current numeral; a trailing plus or
minus switches the style; an interior minus starts the range's second
numeral; anything else is a format error (none). The scanner admits any
char::is_numeric character, but every non-ASCII numeral later fails the
usize parse, which yields the same ImproperFormat with the same payload,
so it is modelled by Char.isDigit. In the atLeast and atMost states the
loop body matches nothing and skips the character. -/
def intervalScan : List Char → Nat → Nat → List Char → List Char → IStyle →
    Option (List Char × List Char × IStyle)
  | [], _, _, first, second, st => some (first, second, st)
  | c :: rest, i, b, first, second, st =>
      match st with
      | .exact =>
          if c.isDigit then intervalScan rest (i + 1) b (first ++ [c]) second .exact
          else if c = '+' ∧ i + 1 = b then intervalScan rest (i + 1) b first second .atLeast
          else if c = '-' ∧ i + 1 = b then intervalScan rest (i + 1) b first second .atMost
          else if c = '-' then intervalScan rest (i + 1) b first second .range
          else none
      | .range =>
          if c.isDigit then intervalScan rest (i + 1) b first (second ++ [c]) .range
          else none
      | _ => intervalScan rest (i + 1) b first second st

/-- The body of Interval::from_str after the trim: scan, then parse the
collected numerals according to the final style. -/
def Interval.fromStrCore (t : List Char) : Except IntervalParseError Interval :=
  match intervalScan t 0 (byteLen t) [] [] .exact with
  | none => .error (.ImproperFormat t)
  | some (first, second, st) =>
      match st with
      | .exact =>
          match parseUsize first with
          | some n => .ok ⟨n, n⟩
          | none => .error (.ImproperFormat t)
      | .atLeast =>
          match parseUsize first with
          | some n => .ok ⟨n, USIZE_MAX⟩
          | none => .error (.ImproperFormat t)
      | .atMost =>
          match parseUsize first with
          | some n => .ok ⟨0, n⟩
          | none => .error (.ImproperFormat t)
      | .range =>
          match parseUsize first with
          | none => .error (.ImproperFormat t)
          | some a =>
              match parseUsize second with
              | none => .error (.ImproperFormat t)
              | some b => if a ≤ b then .ok ⟨a, b⟩ else .error (.BadBounds a b)

/-- Interval::from_str: trim, then run the scanner body. -/
def Interval.fromStr (s : List Char) : Except IntervalParseError Interval :=
  Interval.fromStrCore (rustTrim s)

/-- CharStyleParseError from src/password.rs. -/
inductive CharStyleParseError where
  | NoCharset
  | UnrecognizedPattern
deriving DecidableEq

/-- CharStyle::from_str. The four pattern tokens are matched first; an
empty string is NoCharset; otherwise, when the first character is a
colon, the code tests chars[s.len() - 1] — indexing the char vector with
the byte length — so a non-ASCII string starting with a colon indexes out
of bounds and panics, modelled by the none result. -/
def CharStyle.fromStr (s : List Char) : Option (Except CharStyleParseError CharStyle) :=
  if s = (":upper:").data then some (.ok .Upper)
  else if s = (":lower:").data then some (.ok .Lower)
  else if s = (":number:").data then some (.ok .Number)
  else if s = (":symbol:").data then some (.ok .Symbol)
  else if s.isEmpty then some (.error .NoCharset)
  else if s.head? = some ':' then
    match s.get? (byteLen s - 1) with
    | none => none
    | some c =>
        if c = ':' then some (.error .UnrecognizedPattern)
        else some (.ok (.Custom s))
  else some (.ok (.Custom s))

/-- Display for CharStyle: the pattern token, or the literal custom
characters. -/
def CharStyle.display : CharStyle → List Char
  | .Upper => (":upper:").data
  | .Lower => (":lower:").data
  | .Number => (":number:").data
  | .Symbol => (":symbol:").data
  | .Custom v => v

/-- Decimal display of a numeral. -/
def natToChars (n : Nat) : List Char := (Nat.repr n).data

/-- The interval part of Display for Choice: the shortest canonical form
(N when min = max, then N- for a zero min, then N+ for a usize::MAX
max, else A-B). -/
def intervalDisplay (mn mx : Nat) : List Char :=
  if mn = mx then natToChars mn
  else if mn = 0 then natToChars mx ++ ['-']
  else if mx = USIZE_MAX then natToChars mn ++ ['+']
  else natToChars mn ++ ['-'] ++ natToChars mx

/-- Display for Choice in src/password.rs: the character class, then a
pipe, then the interval — in that order. -/
def Choice.display (c : Choice) : List Char :=
  c.chars.display ++ ['|'] ++ intervalDisplay c.min c.max

/-- Display for Choices: a double slash before every choice. -/
def Choices.display (cs : Choices) : List Char :=
  cs.choices.foldl (fun acc c => acc ++ ['/', '/'] ++ c.display) []

/-- Display for PasswordSpec: the length followed by the choices. -/
def PasswordSpec.display (s : PasswordSpec) : List Char :=
  natToChars s.length ++ s.choices.display

/-- PasswordParseError from src/password.rs. -/
inductive PasswordParseError where
  | ImproperFormat
  | InvalidLength (s : List Char)
  | BadInterval (s : List Char)
  | BadCharset (s : List Char)
deriving DecidableEq

/-- The first while-loop of PasswordSpec::from_str: push characters onto
the stack until it ends with a double slash, then parse the prefix as the
length. Returns the parsed length (none when the separator never occurs,
in which case the default length 32 stays), the unconsumed characters,
and the stack carried into the rest of the function. -/
def specParseLen : List Char → List Char →
    Except PasswordParseError (Option Nat × List Char × List Char)
  | [], stack => .ok (none, [], stack)
  | c :: rest, stack =>
      let stack2 := stack ++ [c]
      if ['/', '/'].isSuffixOf stack2 then
        match parseUsize (stack2.take (stack2.length - 2)) with
        | some n => .ok (some n, rest, [])
        | none => .error (.InvalidLength (stack2.take (stack2.length - 2)))
      else specParseLen rest stack2

/-- The second while-loop of PasswordSpec::from_str. While no interval is
pending, characters accumulate until the stack ends with a pipe and the
prefix parses as an Interval; then characters accumulate until a
character other than a slash follows a double-slash suffix, and the
prefix parses as a CharStyle; once both are present the choice is
included without consuming a character and the state resets. The fuel
only bounds the loop (each iteration either consumes a character or is an
include step, and include steps never repeat, so 2 * length + 2 fuel is
never exhausted); a none result propagates a CharStyle::from_str panic. -/
def specParseChoices : Nat → List Char → List Char → Option Interval → Option CharStyle →
    PasswordSpec →
    Option (Except PasswordParseError (List Char × Option Interval × Option CharStyle × PasswordSpec))
  | 0, stack, _, oi, oc, spec => some (.ok (stack, oi, oc, spec))
  | _ + 1, [], stack, oi, oc, spec => some (.ok (stack, oi, oc, spec))
  | fuel + 1, c :: rest, stack, oi, oc, spec =>
      match oi with
      | none =>
          let stack2 := stack ++ [c]
          if ['|'].isSuffixOf stack2 then
            match Interval.fromStr (stack2.take (stack2.length - 1)) with
            | .ok itv => specParseChoices fuel rest [] (some itv) oc spec
            | .error _ => some (.error (.BadInterval (stack2.take (stack2.length - 1))))
          else specParseChoices fuel rest stack2 none oc spec
      | some itv =>
          match oc with
          | none =>
              if c ≠ '/' ∧ ['/', '/'].isSuffixOf stack then
                match CharStyle.fromStr (stack.take (stack.length - 2)) with
                | none => none
                | some (.error _) => some (.error (.BadCharset (stack.take (stack.length - 2))))
                | some (.ok cs) => specParseChoices fuel rest [c] (some itv) (some cs) spec
              else specParseChoices fuel rest (stack ++ [c]) (some itv) none spec
          | some cs =>
              specParseChoices fuel (c :: rest) stack none none
                (spec.includeChoice (Choice.from_interval itv cs))

/-- The trailing-state handling after the loops of
PasswordSpec::from_str: a stack ending in a pipe completes the pending
charset; a leftover non-empty stack with no charset parses whole as one;
finally both halves present include the choice, neither is fine, and
anything else is an ImproperFormat error. -/
def specFinish (stack : List Char) (oi : Option Interval) (oc : Option CharStyle)
    (spec : PasswordSpec) : Option (Except PasswordParseError PasswordSpec) :=
  let step1 : Option (Except PasswordParseError (List Char × Option CharStyle)) :=
    if ['|'].isSuffixOf stack then
      match CharStyle.fromStr (stack.take (stack.length - 1)) with
      | none => none
      | some (.error _) => some (.error (.BadCharset (stack.take (stack.length - 1))))
      | some (.ok cs) => some (.ok ([], some cs))
    else some (.ok (stack, oc))
  match step1 with
  | none => none
  | some (.error e) => some (.error e)
  | some (.ok (stack2, oc2)) =>
      let step2 : Option (Except PasswordParseError (Option CharStyle)) :=
        if stack2.isEmpty = false ∧ oc2 = none then
          match CharStyle.fromStr stack2 with
          | none => none
          | some (.error _) => some (.error (.BadCharset stack2))
          | some (.ok cs) => some (.ok (some cs))
        else some (.ok oc2)
      match step2 with
      | none => none
      | some (.error e) => some (.error e)
      | some (.ok oc3) =>
          match oi, oc3 with
          | some itv, some cs =>
              some (.ok (spec.includeChoice (Choice.from_interval itv cs)))
          | none, none => some (.ok spec)
          | _, _ => some (.error .ImproperFormat)

/-- FromStr for PasswordSpec: trim the start, parse the length segment,
run the choice loop, then the trailing-state handling. -/
def PasswordSpec.fromStr (s : List Char) : Option (Except PasswordParseError PasswordSpec) :=
  let t := rustTrimStart s
  match specParseLen t [] with
  | .error e => some (.error e)
  | .ok (olen, rest, stack0) =>
      let spec0 := match olen with
        | some n => PasswordSpec.new.setLength n
        | none => PasswordSpec.new
      match specParseChoices (2 * rest.length + 2) rest stack0 none none spec0 with
      | none => none
      | some (.error e) => some (.error e)
      | some (.ok (stack, oi, oc, spec1)) => specFinish stack oi oc spec1

/-! Helper lemmas. -/

/-- Filtering for a key after filtering it away yields nothing. -/
theorem filter_ne_then_eq (key : CharStyle) (l : List Choice) :
    (l.filter (fun x => x.chars ≠ key)).filter (fun x => x.chars = key) = [] := by
  induction l with
  | nil => rfl
  | cons a t ih =>
      by_cases h : a.chars = key <;> simp [List.filter_cons, h, ih]

/-- Choices::push preserves the one-constraint-per-class invariant. -/
theorem nodup_push (cs : Choices) (c : Choice)
    (h : (cs.choices.map Choice.chars).Nodup) :
    (((cs.push c).choices).map Choice.chars).Nodup := by
  unfold Choices.push
  simp only [List.map_cons, List.nodup_cons]
  constructor
  · intro hmem
    obtain ⟨x, hx, hchars⟩ := List.mem_map.mp hmem
    have := List.of_mem_filter hx
    simp at this
    exact this hchars
  · exact (((List.filter_sublist _).map Choice.chars).nodup h)

/-- Two pushes with the same class leave the second choice as the only
entry of that class. -/
theorem push_push_filter (cs : Choices) (c1 c2 : Choice) (h : c1.chars = c2.chars) :
    ((cs.push c1).push c2).choices.filter (fun x => x.chars = c2.chars) = [c2] := by
  show (c2 :: ((c1 :: cs.choices.filter (fun x => x.chars ≠ c1.chars)).filter
      (fun x => x.chars ≠ c2.chars))).filter (fun x => x.chars = c2.chars) = [c2]
  rw [List.filter_cons_of_pos (by simp)]
  rw [List.filter_cons_of_neg (by simp [h])]
  rw [filter_ne_then_eq]

/-- C6: inserting two constraints with the same character class leaves
exactly one constraint for that class carrying the second insertion's
interval, both through Choices::push and through PasswordSpec::include,
and a push never breaks the one-constraint-per-class invariant of the
constraint set. -/
theorem c6_dedup_last_write_wins (cs : Choices) (c1 c2 : Choice) (s : PasswordSpec)
    (h : c1.chars = c2.chars) :
    ((cs.push c1).push c2).choices.filter (fun x => x.chars = c2.chars) = [c2]
    ∧ ((s.includeChoice c1).includeChoice c2).choices.choices.filter
        (fun x => x.chars = c2.chars) = [c2]
    ∧ ((cs.choices.map Choice.chars).Nodup →
        (((cs.push c2).choices).map Choice.chars).Nodup) := by
  exact ⟨push_push_filter cs c1 c2 h, push_push_filter s.choices c1 c2 h, nodup_push cs c2⟩

/-- Witness for C6 at a concrete constraint set. -/
theorem c6_dedup_last_write_wins_witness :
    ((Choices.new.push ⟨1, 2, .Upper⟩).push ⟨3, 4, .Upper⟩).choices.filter
        (fun x => x.chars = CharStyle.Upper) = [⟨3, 4, .Upper⟩]
    ∧ ((PasswordSpec.new.includeChoice ⟨1, 2, .Upper⟩).includeChoice
        ⟨3, 4, .Upper⟩).choices.choices.filter
        (fun x => x.chars = CharStyle.Upper) = [⟨3, 4, .Upper⟩]
    ∧ ((Choices.new.choices.map Choice.chars).Nodup →
        (((Choices.new.push ⟨3, 4, .Upper⟩).choices).map Choice.chars).Nodup) :=
  c6_dedup_last_write_wins Choices.new ⟨1, 2, .Upper⟩ ⟨3, 4, .Upper⟩ PasswordSpec.new rfl

/-- C9: character-class resolution is the fixed deterministic mapping:
Upper is the twenty-six letters A through Z, Lower the twenty-six letters
a through z, Number exactly the nine digits 1 through 9 with 0 excluded,
and Custom the stored literal sequence unchanged. -/
theorem c9_to_charset_resolution :
    CharStyle.to_charset .Upper =
      ['A', 'B', 'C', 'D', 'E', 'F', 'G', 'H', 'I', 'J', 'K', 'L', 'M',
       'N', 'O', 'P', 'Q', 'R', 'S', 'T', 'U', 'V', 'W', 'X', 'Y', 'Z']
    ∧ CharStyle.to_charset .Lower =
      ['a', 'b', 'c', 'd', 'e', 'f', 'g', 'h', 'i', 'j', 'k', 'l', 'm',
       'n', 'o', 'p', 'q', 'r', 's', 't', 'u', 'v', 'w', 'x', 'y', 'z']
    ∧ CharStyle.to_charset .Number = ['1', '2', '3', '4', '5', '6', '7', '8', '9']
    ∧ '0' ∉ CharStyle.to_charset .Number
    ∧ ∀ v : List Char, CharStyle.to_charset (.Custom v) = v := by
  refine ⟨by decide, by decide, by decide, by decide, fun v => rfl⟩

/-- C3: when the saturating sum of minimums exceeds the length, or the
length exceeds the saturating sum of maximums, generate returns None (the
inner none), with no partial output and no structured error. -/
theorem c3_infeasible_generate_none (s : PasswordSpec) (g : Rng)
    (h : s.length < s.choices.choices.foldl (fun a c => satAdd a c.min) 0 ∨
         s.choices.choices.foldl (fun a c => satAdd a c.max) 0 < s.length) :
    s.generate g = some none := by
  have hc : s.check = false := by
    unfold PasswordSpec.check
    simp only [decide_eq_false_iff_not]
    omega
  unfold PasswordSpec.generate
  simp [hc]

/-- Witness for C3: length 0 with one constraint requiring a character. -/
theorem c3_infeasible_generate_none_witness :
    (0 < (⟨0, ⟨[⟨1, 1, .Upper⟩]⟩⟩ : PasswordSpec).choices.choices.foldl
        (fun a c => satAdd a c.min) 0)
    ∧ (⟨0, ⟨[⟨1, 1, .Upper⟩]⟩⟩ : PasswordSpec).generate ⟨fun _ => 0, 0⟩ = some none :=
  ⟨by decide, c3_infeasible_generate_none ⟨0, ⟨[⟨1, 1, .Upper⟩]⟩⟩ ⟨fun _ => 0, 0⟩
    (Or.inl (by decide))⟩

/-- C1: the round-trip law fails on the code. Display for Choice in
src/password.rs writes the character class, a pipe, then the interval,
while FromStr for PasswordSpec reads the interval before the pipe and the
class after it, so parsing the display of the one-constraint spec built
by the builder API (new().upper_exactly(1), display 32//:upper:|1) stops
with a BadInterval error on the class token instead of returning the
original spec. -/
theorem c1_display_parse_mismatch :
    PasswordSpec.fromStr (PasswordSpec.display (PasswordSpec.new.upper_exactly 1)) =
      some (.error (.BadInterval (":upper:").data))
    ∧ ∀ out, PasswordSpec.fromStr (PasswordSpec.display (PasswordSpec.new.upper_exactly 1)) ≠
        some (.ok out) := by
  refine ⟨by rfl, ?_⟩
  intro out h
  rw [show PasswordSpec.fromStr (PasswordSpec.display (PasswordSpec.new.upper_exactly 1)) =
      some (.error (.BadInterval (":upper:").data)) from rfl] at h
  simp at h

/-- C8: charset parsing is not total. On a string that starts with a
colon and contains a non-ASCII character, the code indexes the char
vector at the byte length minus one, which is out of bounds, and panics
(the none result) instead of returning an UnrecognizedPattern error; the
ASCII pattern-shaped, empty, and custom cases do behave as claimed. -/
theorem c8_charstyle_parse_panics :
    CharStyle.fromStr ((":é:").data) = none
    ∧ CharStyle.fromStr ((":not_real:").data) = some (.error .UnrecognizedPattern)
    ∧ CharStyle.fromStr (("").data) = some (.error .NoCharset)
    ∧ CharStyle.fromStr (("ab").data) = some (.ok (.Custom ['a', 'b'])) := by
  exact ⟨by rfl, by rfl, by rfl, by rfl⟩

/-- Drawing from a non-empty charset always yields a member of it and
advances the tape by one. -/
theorem chooseFrom_nonempty (l : List Char) (g : Rng) (h : l ≠ []) :
    ∃ ch, chooseFrom l g = (some ch, ⟨g.tape, g.pos + 1⟩) ∧ ch ∈ l := by
  unfold chooseFrom Rng.draw
  have hl : l.isEmpty = false := by
    cases l with
    | nil => exact absurd rfl h
    | cons a t => rfl
  rw [if_neg (by simp [hl])]
  have hlen : 0 < l.length := List.length_pos.mpr h
  have hlt : g.tape g.pos % l.length < l.length := Nat.mod_lt _ hlen
  refine ⟨l.get ⟨g.tape g.pos % l.length, hlt⟩, ?_, List.get_mem _ _ _⟩
  simp [List.get?_eq_get hlt]

/-- The required-drain loop, run with budget min within max over a
non-empty charset, terminates after exactly min iterations, draws one
class member per iteration, and leaves max reduced by min. -/
theorem getRequiredLoop_spec (cs : CharStyle) (hne : cs.to_charset ≠ []) :
    ∀ (m mx : Nat) (g : Rng), m ≤ mx →
    ∃ res g2, getRequiredLoop m mx cs g = some (res, mx - m, g2) ∧
      res.length = m ∧ ∀ x ∈ res, x ∈ cs.to_charset := by
  intro m
  induction m with
  | zero => intro mx g _; exact ⟨[], g, rfl, rfl, by simp⟩
  | succ m ih =>
      intro mx g hm
      obtain ⟨ch, hdraw, hmem⟩ := chooseFrom_nonempty cs.to_charset g hne
      obtain ⟨res, g2, hloop, hlen, hall⟩ :=
        ih (mx - 1) ⟨g.tape, g.pos + 1⟩ (by omega)
      refine ⟨ch :: res, g2, ?_, by simp [hlen], ?_⟩
      · unfold getRequiredLoop
        rw [if_neg (by omega), hdraw]
        simp only []
        rw [hloop]
        have : mx - 1 - m = mx - (m + 1) := by omega
        rw [this]
      · intro x hx
        rcases List.mem_cons.mp hx with h | h
        · rw [h]; exact hmem
        · exact hall x h

/-- C10: for every Choice whose budgets satisfy min ≤ max and whose
resolved character set is non-empty, get_required terminates (the result
is some rather than the divergence marker), returns exactly the original
min characters, each drawn from the resolved set, and leaves the choice
with min zero and max decreased by exactly the original min. -/
theorem c10_get_required_spec (c : Choice) (g : Rng)
    (hmm : c.min ≤ c.max) (hne : c.chars.to_charset ≠ []) :
    ∃ res c2 g2, c.get_required g = some (res, c2, g2) ∧
      res.length = c.min ∧ (∀ x ∈ res, x ∈ c.chars.to_charset) ∧
      c2.min = 0 ∧ c2.max = c.max - c.min ∧ c2.chars = c.chars := by
  obtain ⟨res, g2, hloop, hlen, hall⟩ :=
    getRequiredLoop_spec c.chars hne c.min c.max g hmm
  exact ⟨res, ⟨0, c.max - c.min, c.chars⟩, g2,
    by unfold Choice.get_required; rw [hloop]; rfl,
    hlen, hall, rfl, rfl, rfl⟩

/-- Witness for C10 at a concrete choice (two required uppercase within
a budget of three) and the constant-zero tape. -/
theorem c10_get_required_spec_witness :
    ∃ res c2 g2,
      (⟨2, 3, .Upper⟩ : Choice).get_required ⟨fun _ => 0, 0⟩ = some (res, c2, g2) ∧
      res.length = 2 ∧ (∀ x ∈ res, x ∈ (CharStyle.Upper).to_charset) ∧
      c2.min = 0 ∧ c2.max = 3 - 2 ∧ c2.chars = .Upper :=
  c10_get_required_spec ⟨2, 3, .Upper⟩ ⟨fun _ => 0, 0⟩ (by decide) (by decide)

/-- Plain (non-saturating) sum of the minimum budgets. -/
def minSum (l : List Choice) : Nat := (l.map Choice.min).sum

/-- Plain (non-saturating) sum of the maximum budgets. -/
def maxSum (l : List Choice) : Nat := (l.map Choice.max).sum

/-- How many characters of a password belong to a class's resolved set. -/
def classCount (x : CharStyle) (l : List Char) : Nat :=
  l.countP (fun ch => decide (ch ∈ x.to_charset))

/-- Summed max budgets of the constraints of one class. -/
def clsMaxSum (x : CharStyle) (l : List Choice) : Nat :=
  ((l.filter (fun c => c.chars = x)).map Choice.max).sum

/-- Summed min budgets of the constraints of one class. -/
def clsMinSum (x : CharStyle) (l : List Choice) : Nat :=
  ((l.filter (fun c => c.chars = x)).map Choice.min).sum

/-- Two classes resolve to sets without a common character. -/
def disjointCS (a b : CharStyle) : Prop :=
  ∀ ch ∈ a.to_charset, ch ∉ b.to_charset

instance (a b : CharStyle) : Decidable (disjointCS a b) := by
  unfold disjointCS
  infer_instance

/-- Disjointness of resolved sets is symmetric. -/
theorem disjointCS_symm {a b : CharStyle} (h : disjointCS a b) : disjointCS b a :=
  fun ch hb ha => h ch ha hb

/-- A saturating fold is the plain sum clamped to usize::MAX. -/
theorem satFold_min (f : Choice → Nat) (l : List Choice) :
    ∀ a, a ≤ USIZE_MAX →
    l.foldl (fun acc c => satAdd acc (f c)) a = min (a + (l.map f).sum) USIZE_MAX := by
  induction l with
  | nil => intro a ha; simpa using by omega
  | cons c t ih =>
      intro a ha
      simp only [List.foldl_cons, List.map_cons, List.sum_cons]
      rw [ih (satAdd a (f c)) (by unfold satAdd; omega)]
      unfold satAdd
      omega

/-- A list is a permutation of any of its elements consed onto the list
with that index removed. -/
theorem get_cons_eraseIdx_perm {α : Type _} (l : List α) (i : Nat) (c : α)
    (h : l.get? i = some c) : l.Perm (c :: l.eraseIdx i) := by
  induction l generalizing i with
  | nil => simp at h
  | cons a t ih =>
      cases i with
      | zero =>
          simp only [List.get?_cons_zero, Option.some_inj] at h
          subst h
          simp [List.eraseIdx]
      | succ i =>
          simp only [List.get?_cons_succ] at h
          have h2 := ih i h
          show (a :: t).Perm (c :: (a :: t).eraseIdx (i + 1))
          have : (a :: t).eraseIdx (i + 1) = a :: t.eraseIdx i := rfl
          rw [this]
          exact (h2.cons a).trans (List.Perm.swap c a _)

/-- Setting an index is, up to permutation, consing the new value onto
the list with that index removed. -/
theorem set_cons_eraseIdx_perm {α : Type _} (l : List α) (i : Nat) (a : α)
    (h : i < l.length) : (l.set i a).Perm (a :: l.eraseIdx i) := by
  induction l generalizing i with
  | nil => simp at h
  | cons b t ih =>
      cases i with
      | zero => simp [List.eraseIdx]
      | succ i =>
          have h2 := ih i (by simpa using h)
          show (b :: t.set i a).Perm (a :: (b :: t).eraseIdx (i + 1))
          have : (b :: t).eraseIdx (i + 1) = b :: t.eraseIdx i := rfl
          rw [this]
          exact (h2.cons b).trans (List.Perm.swap a b _)

/-- Dropping the inactive choices (those with max budget zero) does not
change the summed max budgets. -/
theorem maxSum_filter_active (l : List Choice) :
    maxSum (l.filter Choice.active) = maxSum l := by
  induction l with
  | nil => rfl
  | cons c t ih =>
      by_cases h : c.active = true
      · simp [maxSum, List.filter_cons, h] at ih ⊢
        omega
      · have hmax : c.max = 0 := by
          unfold Choice.active at h
          simp at h
          omega
        simp [maxSum, List.filter_cons, h, hmax] at ih ⊢
        omega

/-- Dropping the inactive choices does not change a class's summed max
budgets either. -/
theorem clsMaxSum_filter_active (x : CharStyle) (l : List Choice) :
    clsMaxSum x (l.filter Choice.active) = clsMaxSum x l := by
  induction l with
  | nil => rfl
  | cons c t ih =>
      by_cases h : c.active = true
      · by_cases hx : c.chars = x <;>
          simp [clsMaxSum, List.filter_cons, h, hx] at ih ⊢ <;> omega
      · have hmax : c.max = 0 := by
          unfold Choice.active at h
          simp at h
          omega
        by_cases hx : c.chars = x <;>
          simp [clsMaxSum, List.filter_cons, h, hx, hmax] at ih ⊢ <;> omega

/-- Pointwise bounded mins make the summed budget differences exact. -/
theorem sum_sub_spec (l : List Choice) (hwf : ∀ c ∈ l, c.min ≤ c.max) :
    (l.map (fun c => c.max - c.min)).sum = maxSum l - minSum l ∧ minSum l ≤ maxSum l := by
  induction l with
  | nil => simp [minSum, maxSum]
  | cons c t ih =>
      have hc := hwf c (by simp)
      obtain ⟨h1, h2⟩ := ih (fun x hx => hwf x (by simp [hx]))
      simp only [List.map_cons, List.sum_cons, minSum, maxSum] at h1 h2 ⊢
      omega

/-- The required-drain pass of generate: it succeeds on well-formed
choices, depletes every min to zero and every max by its min, draws
exactly the summed mins, draws at least min members of every choice's
class, and — against classes that are each equal to or disjoint from a
given class — at most that class's summed mins. -/
theorem genRequired_spec (l : List Choice) :
    ∀ (g : Rng), (∀ c ∈ l, c.min ≤ c.max) → (∀ c ∈ l, c.chars.to_charset ≠ []) →
    ∃ chars g2,
      genRequired l g =
        some (chars, l.map (fun c => (⟨0, c.max - c.min, c.chars⟩ : Choice)), g2) ∧
      chars.length = minSum l ∧
      (∀ c0 ∈ l, c0.min ≤ classCount c0.chars chars) ∧
      (∀ x : CharStyle, (∀ c ∈ l, c.chars = x ∨ disjointCS c.chars x) →
        classCount x chars ≤ clsMinSum x l) := by
  induction l with
  | nil =>
      intro g _ _
      exact ⟨[], g, rfl, rfl, by simp, by intro x _; simp [classCount, clsMinSum]⟩
  | cons c t ih =>
      intro g hwf hne
      obtain ⟨res, g2, hloop, hlen, hall⟩ :=
        getRequiredLoop_spec c.chars (hne c (by simp)) c.min c.max g (hwf c (by simp))
      have hgr : c.get_required g = some (res, ⟨0, c.max - c.min, c.chars⟩, g2) := by
        unfold Choice.get_required
        rw [hloop]
        rfl
      obtain ⟨rest, g3, hrec, hrlen, hrmin, hrcls⟩ :=
        ih g2 (fun x hx => hwf x (by simp [hx])) (fun x hx => hne x (by simp [hx]))
      refine ⟨res ++ rest, g3, ?_, ?_, ?_, ?_⟩
      · show genRequired (c :: t) g = _
        unfold genRequired
        simp only [hgr, hrec]
        rfl
      · simp [List.length_append, hlen, hrlen, minSum]
      · intro c0 hc0
        rcases List.mem_cons.mp hc0 with h | h
        · subst h
          have hres : classCount c0.chars res = res.length :=
            List.countP_eq_length.mpr (fun a ha => by simpa using hall a ha)
          have : classCount c0.chars (res ++ rest) =
              classCount c0.chars res + classCount c0.chars rest :=
            List.countP_append _ _ _
          omega
        · have h1 := hrmin c0 h
          have : classCount c0.chars (res ++ rest) =
              classCount c0.chars res + classCount c0.chars rest :=
            List.countP_append _ _ _
          omega
      · intro x hx
        have happ : classCount x (res ++ rest) =
            classCount x res + classCount x rest := List.countP_append _ _ _
        have hrestle : classCount x rest ≤ clsMinSum x t :=
          hrcls x (fun cc hcc => hx cc (by simp [hcc]))
        by_cases hcx : c.chars = x
        · have hresle : classCount x res ≤ res.length := List.countP_le_length _
          have hcls : clsMinSum x (c :: t) = c.min + clsMinSum x t := by
            simp [clsMinSum, List.filter_cons, hcx]
          omega
        · have hdisj : disjointCS c.chars x := by
            rcases hx c (by simp) with h | h
            · exact absurd h hcx
            · exact h
          have hres0 : classCount x res = 0 := by
            apply List.countP_eq_zero.mpr
            intro a ha
            simp only [decide_eq_true_eq]
            exact fun hmem => hdisj a (hall a ha) hmem
          have hcls : clsMinSum x (c :: t) = clsMinSum x t := by
            simp [clsMinSum, List.filter_cons, hcx]
          omega

/-- The fill loop of generate: with an all-active pool of non-empty
classes and enough summed max budget, it terminates normally and appends
exactly the requested number of characters. -/
theorem fillLoop_spec :
    ∀ (n : Nat) (pool : List Choice) (acc : List Char) (g : Rng),
    (∀ c ∈ pool, c.active = true) → (∀ c ∈ pool, c.chars.to_charset ≠ []) →
    n ≤ maxSum pool →
    ∃ ext g2, fillLoop n pool acc g = some (acc ++ ext, g2) ∧ ext.length = n := by
  intro n
  induction n with
  | zero => intro pool acc g _ _ _; exact ⟨[], g, by simp [fillLoop], rfl⟩
  | succ n ih =>
      intro pool acc g hact hne hsum
      have hpne : pool ≠ [] := by
        intro h
        subst h
        simp [maxSum] at hsum
      have hpe : pool.isEmpty = false := by
        cases pool
        · exact absurd rfl hpne
        · rfl
      have hlen : 0 < pool.length := List.length_pos.mpr hpne
      have hlt : g.tape g.pos % pool.length < pool.length := Nat.mod_lt _ hlen
      have hget : pool.get? (g.tape g.pos % pool.length) =
          some (pool.get ⟨g.tape g.pos % pool.length, hlt⟩) := List.get?_eq_get hlt
      set idx := g.tape g.pos % pool.length with hidx
      set c := pool.get ⟨idx, hlt⟩ with hcdef
      have hcmem : c ∈ pool := List.get_mem _ _ _
      have hcact : c.active = true := hact c hcmem
      have hcmax : 0 < c.max := by
        unfold Choice.active at hcact
        simpa using hcact
      obtain ⟨ch, hdraw, hchmem⟩ :=
        chooseFrom_nonempty c.chars.to_charset ⟨g.tape, g.pos + 1⟩ (hne c hcmem)
      have hnext : c.next ⟨g.tape, g.pos + 1⟩ =
          (some ch, ⟨c.min - 1, c.max - 1, c.chars⟩, ⟨g.tape, g.pos + 1 + 1⟩) := by
        unfold Choice.next
        rw [if_pos hcact, hdraw]
      set c2 : Choice := ⟨c.min - 1, c.max - 1, c.chars⟩ with hc2
      have hperm : pool.Perm (c :: pool.eraseIdx idx) :=
        get_cons_eraseIdx_perm pool idx c hget
      have hms : maxSum pool = c.max + maxSum (pool.eraseIdx idx) := by
        unfold maxSum
        rw [(hperm.map Choice.max).sum_eq]
        simp
      have herasesub : ∀ x ∈ pool.eraseIdx idx, x ∈ pool :=
        fun x hx => List.eraseIdx_subset _ _ hx
      have hstep : fillLoop (n + 1) pool acc g =
          fillLoop n (if c2.active then pool.set idx c2 else pool.eraseIdx idx)
            (acc ++ [ch]) ⟨g.tape, g.pos + 1 + 1⟩ := by
        show (if pool.isEmpty then _ else _) = _
        rw [if_neg (by simp [hpe])]
        simp only [Rng.draw, ← hidx, hget, hnext]
      by_cases hact2 : c2.active = true
      · have hperm2 : (pool.set idx c2).Perm (c2 :: pool.eraseIdx idx) :=
          set_cons_eraseIdx_perm pool idx c2 hlt
        have hms2 : maxSum (pool.set idx c2) = (c.max - 1) + maxSum (pool.eraseIdx idx) := by
          unfold maxSum
          rw [(hperm2.map Choice.max).sum_eq]
          simp [hc2]
        have hmem2 : ∀ x ∈ pool.set idx c2, x = c2 ∨ x ∈ pool := by
          intro x hx
          rcases List.mem_cons.mp (hperm2.mem_iff.mp hx) with h | h
          · exact Or.inl h
          · exact Or.inr (herasesub x h)
        obtain ⟨ext, gf, he, hl⟩ :=
          ih (pool.set idx c2) (acc ++ [ch]) ⟨g.tape, g.pos + 1 + 1⟩
            (by
              intro x hx
              rcases hmem2 x hx with h | h
              · rw [h]; exact hact2
              · exact hact x h)
            (by
              intro x hx
              rcases hmem2 x hx with h | h
              · rw [h]; exact hne c hcmem
              · exact hne x h)
            (by rw [hms2]; omega)
        refine ⟨ch :: ext, gf, ?_, by simp [hl]⟩
        rw [hstep, if_pos hact2, he]
        simp
      · have hcm1 : c.max = 1 := by
          have h1 : c2.max = c.max - 1 := by rw [hc2]
          have h2 : ¬ (0 < c2.max) := by
            intro hpos
            exact hact2 (by unfold Choice.active; simpa using hpos)
          omega
        obtain ⟨ext, gf, he, hl⟩ :=
          ih (pool.eraseIdx idx) (acc ++ [ch]) ⟨g.tape, g.pos + 1 + 1⟩
            (fun x hx => hact x (herasesub x hx))
            (fun x hx => hne x (herasesub x hx))
            (by omega)
        refine ⟨ch :: ext, gf, ?_, by simp [hl]⟩
        rw [hstep, if_neg (by simp [hact2]), he]
        simp

/-- clsMaxSum only depends on the multiset of choices. -/
theorem clsMaxSum_perm (x : CharStyle) {l1 l2 : List Choice} (h : l1.Perm l2) :
    clsMaxSum x l1 = clsMaxSum x l2 := by
  unfold clsMaxSum
  rw [((h.filter _).map _).sum_eq]

/-- The fill loop never pushes the count of one class past that class's
summed max budget in the pool, provided every pool class is either the
tracked class or disjoint from it. -/
theorem fillLoop_classBound (x : CharStyle) :
    ∀ (n : Nat) (pool : List Choice) (acc : List Char) (g : Rng)
      (acc2 : List Char) (g2 : Rng),
    (∀ c ∈ pool, c.chars = x ∨ disjointCS c.chars x) →
    fillLoop n pool acc g = some (acc2, g2) →
    classCount x acc2 ≤ classCount x acc + clsMaxSum x pool := by
  intro n
  induction n with
  | zero =>
      intro pool acc g acc2 g2 _ hfill
      simp only [fillLoop, Option.some_inj, Prod.mk.injEq] at hfill
      rw [← hfill.1]
      exact Nat.le_add_right _ _
  | succ n ih =>
      intro pool acc g acc2 g2 hcls hfill
      by_cases hpe : pool.isEmpty = true
      · have hpool : pool = [] := by
          cases pool
          · rfl
          · simp at hpe
        have hfill2 : fillLoop n pool acc g = some (acc2, g2) := by
          unfold fillLoop at hfill
          rwa [if_pos hpe] at hfill
        exact ih pool acc g acc2 g2 hcls hfill2
      · have hpne : pool ≠ [] := by
          cases pool
          · simp at hpe
          · simp
        have hlen : 0 < pool.length := List.length_pos.mpr hpne
        have hlt : g.tape g.pos % pool.length < pool.length := Nat.mod_lt _ hlen
        have hget : pool.get? (g.tape g.pos % pool.length) =
            some (pool.get ⟨g.tape g.pos % pool.length, hlt⟩) := List.get?_eq_get hlt
        set idx := g.tape g.pos % pool.length with hidx
        set c := pool.get ⟨idx, hlt⟩ with hcdef
        have hcmem : c ∈ pool := List.get_mem _ _ _
        by_cases hcact : c.active = true
        · by_cases hcharne : c.chars.to_charset = []
          · exfalso
            have hdrawe : chooseFrom c.chars.to_charset ⟨g.tape, g.pos + 1⟩ =
                (none, ⟨g.tape, g.pos + 1⟩) := by
              unfold chooseFrom
              rw [if_pos (by simp [hcharne])]
            have hnext : c.next ⟨g.tape, g.pos + 1⟩ =
                (none, ⟨c.min - 1, c.max - 1, c.chars⟩, ⟨g.tape, g.pos + 1⟩) := by
              unfold Choice.next
              rw [if_pos hcact, hdrawe]
            have : fillLoop (n + 1) pool acc g = none := by
              show (if pool.isEmpty then _ else _) = _
              rw [if_neg (by simp [hpe])]
              simp only [Rng.draw, ← hidx, hget, hnext]
            rw [this] at hfill
            exact Option.noConfusion hfill
          · obtain ⟨ch, hdraw, hchmem⟩ :=
              chooseFrom_nonempty c.chars.to_charset ⟨g.tape, g.pos + 1⟩ hcharne
            have hnext : c.next ⟨g.tape, g.pos + 1⟩ =
                (some ch, ⟨c.min - 1, c.max - 1, c.chars⟩, ⟨g.tape, g.pos + 1 + 1⟩) := by
              unfold Choice.next
              rw [if_pos hcact, hdraw]
            set c2 : Choice := ⟨c.min - 1, c.max - 1, c.chars⟩ with hc2
            have hcmax : 0 < c.max := by
              unfold Choice.active at hcact
              simpa using hcact
            have hstep : fillLoop (n + 1) pool acc g =
                fillLoop n (if c2.active then pool.set idx c2 else pool.eraseIdx idx)
                  (acc ++ [ch]) ⟨g.tape, g.pos + 1 + 1⟩ := by
              show (if pool.isEmpty then _ else _) = _
              rw [if_neg (by simp [hpe])]
              simp only [Rng.draw, ← hidx, hget, hnext]
            rw [hstep] at hfill
            have hperm : pool.Perm (c :: pool.eraseIdx idx) :=
              get_cons_eraseIdx_perm pool idx c hget
            have herasesub : ∀ y ∈ pool.eraseIdx idx, y ∈ pool :=
              fun y hy => List.eraseIdx_subset _ _ hy
            -- the updated pool, uniformly named
            set pool2 := if c2.active then pool.set idx c2 else pool.eraseIdx idx with hpool2
            have hmem2 : ∀ y ∈ pool2, y = c2 ∨ y ∈ pool := by
              intro y hy
              rw [hpool2] at hy
              by_cases ha : c2.active = true
              · rw [if_pos ha] at hy
                have hperm2 : (pool.set idx c2).Perm (c2 :: pool.eraseIdx idx) :=
                  set_cons_eraseIdx_perm pool idx c2 hlt
                rcases List.mem_cons.mp (hperm2.mem_iff.mp hy) with h | h
                · exact Or.inl h
                · exact Or.inr (herasesub y h)
              · rw [if_neg ha] at hy
                exact Or.inr (herasesub y hy)
            have hcls2 : ∀ y ∈ pool2, y.chars = x ∨ disjointCS y.chars x := by
              intro y hy
              rcases hmem2 y hy with h | h
              · rw [h, hc2]
                exact hcls c hcmem
              · exact hcls y h
            have hrec := ih pool2 (acc ++ [ch]) ⟨g.tape, g.pos + 1 + 1⟩ acc2 g2 hcls2 hfill
            have happ : classCount x (acc ++ [ch]) =
                classCount x acc + classCount x [ch] := List.countP_append _ _ _
            have hclspool : clsMaxSum x pool =
                clsMaxSum x (c :: pool.eraseIdx idx) := clsMaxSum_perm x hperm
            by_cases hx : c.chars = x
            · -- character counts toward the class; budget drops by one
              have hch1 : classCount x [ch] = 1 := by
                have : ch ∈ x.to_charset := by rw [← hx]; exact hchmem
                simp [classCount, this]
              have hcons : clsMaxSum x (c :: pool.eraseIdx idx) =
                  c.max + clsMaxSum x (pool.eraseIdx idx) := by
                simp [clsMaxSum, List.filter_cons, hx]
              have hpool2sum : clsMaxSum x pool2 =
                  (c.max - 1) + clsMaxSum x (pool.eraseIdx idx) := by
                rw [hpool2]
                by_cases ha : c2.active = true
                · rw [if_pos ha,
                    clsMaxSum_perm x (set_cons_eraseIdx_perm pool idx c2 hlt)]
                  simp [clsMaxSum, List.filter_cons, hc2, hx]
                · rw [if_neg ha]
                  have h1 : c2.max = c.max - 1 := by rw [hc2]
                  have h2 : ¬ (0 < c2.max) := by
                    intro hpos
                    exact ha (by unfold Choice.active; simpa using hpos)
                  have : c.max = 1 := by omega
                  rw [this]
                  simp
              omega
            · have hdisj : disjointCS c.chars x := by
                rcases hcls c hcmem with h | h
                · exact absurd h hx
                · exact h
              have hch0 : classCount x [ch] = 0 := by
                have : ch ∉ x.to_charset := hdisj ch hchmem
                simp [classCount, this]
              have hcons : clsMaxSum x (c :: pool.eraseIdx idx) =
                  clsMaxSum x (pool.eraseIdx idx) := by
                simp [clsMaxSum, List.filter_cons, hx]
              have hpool2sum : clsMaxSum x pool2 =
                  clsMaxSum x (pool.eraseIdx idx) := by
                rw [hpool2]
                by_cases ha : c2.active = true
                · rw [if_pos ha,
                    clsMaxSum_perm x (set_cons_eraseIdx_perm pool idx c2 hlt)]
                  simp [clsMaxSum, List.filter_cons, hc2, hx]
                · rw [if_neg ha]
              omega
        · exfalso
          have hnext : c.next ⟨g.tape, g.pos + 1⟩ = (none, c, ⟨g.tape, g.pos + 1⟩) := by
            unfold Choice.next
            rw [if_neg hcact]
          have : fillLoop (n + 1) pool acc g = none := by
            show (if pool.isEmpty then _ else _) = _
            rw [if_neg (by simp [hpe])]
            simp only [Rng.draw, ← hidx, hget, hnext]
          rw [this] at hfill
          exact Option.noConfusion hfill

/-- The shuffle loop run with fuel equal to the length permutes the
buffer. -/
theorem shuffleLoop_perm : ∀ (n : Nat) (l : List Char) (g : Rng), l.length = n →
    (shuffleLoop n l g).Perm l := by
  intro n
  induction n with
  | zero =>
      intro l g h
      rw [List.length_eq_zero] at h
      subst h
      simp [shuffleLoop]
  | succ n ih =>
      intro l g h
      have hne : l ≠ [] := by
        intro e
        subst e
        simp at h
      have hlen : 0 < l.length := List.length_pos.mpr hne
      have hlt : g.draw.1 % l.length < l.length := Nat.mod_lt _ hlen
      have hget : l.get? (g.draw.1 % l.length) =
          some (l.get ⟨g.draw.1 % l.length, hlt⟩) := List.get?_eq_get hlt
      have herlen : (l.eraseIdx (g.draw.1 % l.length)).length = n := by
        have := List.length_eraseIdx_add_one hlt
        omega
      have hrec := ih (l.eraseIdx (g.draw.1 % l.length)) g.draw.2 herlen
      have hperm := get_cons_eraseIdx_perm l (g.draw.1 % l.length) _ hget
      show (match l.get? (g.draw.1 % l.length) with
        | none => []
        | some ch => ch :: shuffleLoop n (l.eraseIdx (g.draw.1 % l.length)) g.draw.2).Perm l
      rw [hget]
      exact (hrec.cons _).trans hperm.symm

/-- Shuffling permutes the buffer. -/
theorem shuffle_perm (l : List Char) (g : Rng) : (shuffle l g).Perm l :=
  shuffleLoop_perm l.length l g rfl

/-- Under pairwise disjointness every constraint's class is the tracked
constraint's class or disjoint from it. -/
theorem class_or_disjoint (l : List Choice) (c0 : Choice) (h0 : c0 ∈ l)
    (hpw : l.Pairwise (fun a b => disjointCS a.chars b.chars)) :
    ∀ c ∈ l, c.chars = c0.chars ∨ disjointCS c.chars c0.chars := by
  intro c hc
  by_cases he : c.chars = c0.chars
  · exact Or.inl he
  · refine Or.inr ?_
    have hsym : Symmetric (fun a b : Choice => disjointCS a.chars b.chars) :=
      fun a b hab => disjointCS_symm hab
    exact hpw.forall hsym hc h0 (fun heq => he (by rw [heq]))

/-- Under pairwise disjointness a constraint with a non-empty class is
the only entry of its class. -/
theorem filter_class_eq_single (l : List Choice) (c0 : Choice) (h0 : c0 ∈ l)
    (hpw : l.Pairwise (fun a b => disjointCS a.chars b.chars))
    (hne : c0.chars.to_charset ≠ []) :
    l.filter (fun c => c.chars = c0.chars) = [c0] := by
  induction l with
  | nil => simp at h0
  | cons a t ih =>
      have hhead : ∀ b ∈ t, disjointCS a.chars b.chars := (List.pairwise_cons.mp hpw).1
      have htail := (List.pairwise_cons.mp hpw).2
      obtain ⟨ch, hch⟩ := List.exists_mem_of_ne_nil _ hne
      rcases List.mem_cons.mp h0 with h | h
      · subst h
        rw [List.filter_cons_of_pos (by simp)]
        suffices hs : t.filter (fun c => c.chars = c0.chars) = [] by rw [hs]
        apply List.filter_eq_nil_iff.mpr
        intro b hb
        simp only [decide_eq_true_eq]
        intro heq
        have hd := hhead b hb
        rw [heq] at hd
        exact hd ch hch hch
      · have ha : ¬ (a.chars = c0.chars) := by
          intro heq
          have hd := hhead c0 h
          rw [heq] at hd
          exact hd ch hch hch
        rw [List.filter_cons_of_neg (by simp [ha])]
        exact ih h htail

/-- Filtering by class commutes with the budget-draining map of
generate, which preserves classes. -/
theorem filter_map_drain (x : CharStyle) (l : List Choice) :
    (l.map (fun c => (⟨0, c.max - c.min, c.chars⟩ : Choice))).filter
        (fun c => c.chars = x)
      = (l.filter (fun c => c.chars = x)).map
        (fun c => (⟨0, c.max - c.min, c.chars⟩ : Choice)) := by
  induction l with
  | nil => rfl
  | cons a t ih =>
      by_cases ha : a.chars = x <;> simp [List.filter_cons, ha, ih]

/-- Master characterization of generate for well-formed feasible specs:
it succeeds, the password has exactly the requested length, every
constraint's class reaches its min, and under pairwise-disjoint resolved
classes no constraint's class exceeds its max. -/
theorem generate_master (s : PasswordSpec) (g : Rng)
    (hwf : ∀ c ∈ s.choices.choices, c.min ≤ c.max)
    (hne : ∀ c ∈ s.choices.choices, c.chars.to_charset ≠ [])
    (hmin : minSum s.choices.choices ≤ s.length)
    (hmax : s.length ≤ s.choices.choices.foldl (fun a c => satAdd a c.max) 0) :
    ∃ pw, s.generate g = some (some pw) ∧ pw.length = s.length ∧
      (∀ c0 ∈ s.choices.choices, c0.min ≤ classCount c0.chars pw) ∧
      ((s.choices.choices.Pairwise (fun a b => disjointCS a.chars b.chars)) →
        ∀ c0 ∈ s.choices.choices, classCount c0.chars pw ≤ c0.max) := by
  have hmax' : s.length ≤ maxSum s.choices.choices := by
    have hf := satFold_min Choice.max s.choices.choices 0 (Nat.zero_le _)
    have hms : maxSum s.choices.choices = (s.choices.choices.map Choice.max).sum := rfl
    rw [hf] at hmax
    omega
  have hcheck : s.check = true := by
    simp only [PasswordSpec.check, decide_eq_true_eq]
    refine ⟨?_, hmax⟩
    have hf := satFold_min Choice.min s.choices.choices 0 (Nat.zero_le _)
    have hms : minSum s.choices.choices = (s.choices.choices.map Choice.min).sum := rfl
    rw [hf]
    omega
  obtain ⟨chars, g2, hgen, hclen, hcmin, hccls⟩ :=
    genRequired_spec s.choices.choices g hwf hne
  have hpoolact : ∀ c ∈ ((s.choices.choices.map
      (fun c => (⟨0, c.max - c.min, c.chars⟩ : Choice))).filter Choice.active),
      c.active = true := fun c hc => (List.mem_filter.mp hc).2
  have hpoolne : ∀ c ∈ ((s.choices.choices.map
      (fun c => (⟨0, c.max - c.min, c.chars⟩ : Choice))).filter Choice.active),
      c.chars.to_charset ≠ [] := by
    intro c hc
    obtain ⟨c1, hc1, heq⟩ := List.mem_map.mp (List.mem_filter.mp hc).1
    subst heq
    exact hne c1 hc1
  obtain ⟨hsub1, hsub2⟩ := sum_sub_spec s.choices.choices hwf
  have hrem : s.length - chars.length ≤ maxSum ((s.choices.choices.map
      (fun c => (⟨0, c.max - c.min, c.chars⟩ : Choice))).filter Choice.active) := by
    rw [maxSum_filter_active]
    have h1 : maxSum (s.choices.choices.map
        (fun c => (⟨0, c.max - c.min, c.chars⟩ : Choice))) =
        (s.choices.choices.map (fun c => c.max - c.min)).sum := by
      unfold maxSum
      rw [List.map_map]
      rfl
    rw [h1, hsub1]
    omega
  obtain ⟨ext, g3, hfill, hextlen⟩ :=
    fillLoop_spec (s.length - chars.length)
      ((s.choices.choices.map
        (fun c => (⟨0, c.max - c.min, c.chars⟩ : Choice))).filter Choice.active)
      chars g2 hpoolact hpoolne hrem
  refine ⟨shuffle (chars ++ ext) g3, ?_, ?_, ?_, ?_⟩
  · unfold PasswordSpec.generate
    rw [if_pos hcheck, hgen]
    simp only [hfill]
  · have hlen := (shuffle_perm (chars ++ ext) g3).length_eq
    rw [hlen, List.length_append]
    omega
  · intro c0 hc0
    have hcnt := (shuffle_perm (chars ++ ext) g3).countP_eq
      (fun ch => decide (ch ∈ c0.chars.to_charset))
    have happ : classCount c0.chars (chars ++ ext) =
        classCount c0.chars chars + classCount c0.chars ext := List.countP_append _ _ _
    have h1 := hcmin c0 hc0
    unfold classCount at happ h1 ⊢
    omega
  · intro hpw c0 hc0
    have hXne := hne c0 hc0
    have horD := class_or_disjoint s.choices.choices c0 hc0 hpw
    have hsingle := filter_class_eq_single s.choices.choices c0 hc0 hpw hXne
    have hminX : classCount c0.chars chars ≤ c0.min := by
      have h1 := hccls c0.chars horD
      have h2 : clsMinSum c0.chars s.choices.choices = c0.min := by
        unfold clsMinSum
        rw [hsingle]
        simp
      omega
    have horDpool : ∀ c ∈ ((s.choices.choices.map
        (fun c => (⟨0, c.max - c.min, c.chars⟩ : Choice))).filter Choice.active),
        c.chars = c0.chars ∨ disjointCS c.chars c0.chars := by
      intro c hcp
      obtain ⟨c1, hc1, heq⟩ := List.mem_map.mp (List.mem_filter.mp hcp).1
      subst heq
      exact horD c1 hc1
    have hbound := fillLoop_classBound c0.chars (s.length - chars.length)
      ((s.choices.choices.map
        (fun c => (⟨0, c.max - c.min, c.chars⟩ : Choice))).filter Choice.active)
      chars g2 (chars ++ ext) g3 horDpool hfill
    have hbudget : clsMaxSum c0.chars ((s.choices.choices.map
        (fun c => (⟨0, c.max - c.min, c.chars⟩ : Choice))).filter Choice.active) =
        c0.max - c0.min := by
      rw [clsMaxSum_filter_active]
      unfold clsMaxSum
      rw [filter_map_drain, hsingle]
      simp
    have hcnt := (shuffle_perm (chars ++ ext) g3).countP_eq
      (fun ch => decide (ch ∈ c0.chars.to_charset))
    have happ : classCount c0.chars (chars ++ ext) =
        classCount c0.chars chars + classCount c0.chars ext := List.countP_append _ _ _
    have hwfc := hwf c0 hc0
    unfold classCount at happ hbound hminX ⊢
    omega

/-- Counterexample to C2 as stated: the spec with length 1 and the single
constraint Custom([]) exactly 1 is feasible in the claim's sense (sum of
mins is 1 ≤ 1 ≤ saturating sum of maxes), yet generate returns
Some of the empty string, whose character count 0 is not the length 1.
The empty custom class absorbs the required draw without producing a
character. -/
theorem c2_length_counterexample :
    minSum [⟨1, 1, .Custom []⟩] = 1
    ∧ (1 : Nat) ≤ ([⟨1, 1, (.Custom [] : CharStyle)⟩] : List Choice).foldl
        (fun a c => satAdd a c.max) 0
    ∧ (⟨1, ⟨[⟨1, 1, .Custom []⟩]⟩⟩ : PasswordSpec).generate ⟨fun _ => 0, 0⟩ =
        some (some [])
    ∧ (([] : List Char)).length ≠ 1 := by
  exact ⟨by decide, by decide, by rfl, by decide⟩

/-- C2 amended: for every feasible PasswordSpec whose constraints also
satisfy the spec's data-model invariants — min ≤ max per interval and a
non-empty resolved character set per class — generate returns Some string
whose character count equals the spec's length exactly, for every random
tape. -/
theorem c2_length_invariant (s : PasswordSpec) (g : Rng)
    (hwf : ∀ c ∈ s.choices.choices, c.min ≤ c.max)
    (hne : ∀ c ∈ s.choices.choices, c.chars.to_charset ≠ [])
    (hmin : minSum s.choices.choices ≤ s.length)
    (hmax : s.length ≤ s.choices.choices.foldl (fun a c => satAdd a c.max) 0) :
    ∃ pw, s.generate g = some (some pw) ∧ pw.length = s.length := by
  obtain ⟨pw, h1, h2, _, _⟩ := generate_master s g hwf hne hmin hmax
  exact ⟨pw, h1, h2⟩

/-- Witness for the amended C2 at a concrete feasible spec. -/
theorem c2_length_invariant_witness :
    ∃ pw, (⟨4, ⟨[⟨1, 2, .Upper⟩, ⟨1, 3, .Number⟩]⟩⟩ : PasswordSpec).generate
        ⟨fun _ => 0, 0⟩ = some (some pw) ∧ pw.length = 4 :=
  c2_length_invariant ⟨4, ⟨[⟨1, 2, .Upper⟩, ⟨1, 3, .Number⟩]⟩⟩ ⟨fun _ => 0, 0⟩
    (by decide) (by decide) (by decide) (by decide)

/-- Counterexample to C4 as stated: with constraints Custom([]) exactly 1
and Upper at-most 2 and length 2, the spec is feasible in the claim's
sense, but the generated password AA contains zero members of the
Custom([]) class, below its min of 1. -/
theorem c4_min_counterexample :
    minSum [⟨1, 1, .Custom []⟩, ⟨0, 2, .Upper⟩] = 1
    ∧ (2 : Nat) ≤ ([⟨1, 1, (.Custom [] : CharStyle)⟩, ⟨0, 2, .Upper⟩] : List Choice).foldl
        (fun a c => satAdd a c.max) 0
    ∧ (⟨2, ⟨[⟨1, 1, .Custom []⟩, ⟨0, 2, .Upper⟩]⟩⟩ : PasswordSpec).generate
        ⟨fun _ => 0, 0⟩ = some (some ['A', 'A'])
    ∧ classCount (.Custom []) ['A', 'A'] = 0 := by
  exact ⟨by decide, by decide, by rfl, by decide⟩

/-- C4 amended: for every feasible PasswordSpec satisfying the data-model
invariants (min ≤ max, non-empty resolved classes) and every constraint
in it, generate returns a password containing at least that constraint's
min characters of that constraint's class. -/
theorem c4_min_satisfaction (s : PasswordSpec) (g : Rng)
    (hwf : ∀ c ∈ s.choices.choices, c.min ≤ c.max)
    (hne : ∀ c ∈ s.choices.choices, c.chars.to_charset ≠ [])
    (hmin : minSum s.choices.choices ≤ s.length)
    (hmax : s.length ≤ s.choices.choices.foldl (fun a c => satAdd a c.max) 0) :
    ∀ c0 ∈ s.choices.choices, ∃ pw, s.generate g = some (some pw) ∧
      c0.min ≤ classCount c0.chars pw := by
  obtain ⟨pw, h1, _, h3, _⟩ := generate_master s g hwf hne hmin hmax
  exact fun c0 hc0 => ⟨pw, h1, h3 c0 hc0⟩

/-- Witness for the amended C4 at a concrete spec and constraint. -/
theorem c4_min_satisfaction_witness :
    ∃ pw, (⟨2, ⟨[⟨1, 2, .Upper⟩]⟩⟩ : PasswordSpec).generate ⟨fun _ => 0, 0⟩ =
        some (some pw) ∧ 1 ≤ classCount .Upper pw :=
  c4_min_satisfaction ⟨2, ⟨[⟨1, 2, .Upper⟩]⟩⟩ ⟨fun _ => 0, 0⟩
    (by decide) (by decide) (by decide) (by decide) ⟨1, 2, .Upper⟩ (by decide)

/-- Counterexample to C5 as stated: with constraints Custom(A) exactly 1
and Upper at-most 1 and length 2, the spec is feasible, but the generated
password AA contains two characters of the Upper class, above its max of
1 — the A drawn for the overlapping Custom(A) class also counts as Upper. -/
theorem c5_max_counterexample :
    minSum [⟨1, 1, .Custom ['A']⟩, ⟨0, 1, .Upper⟩] = 1
    ∧ (2 : Nat) ≤ ([⟨1, 1, (.Custom ['A'] : CharStyle)⟩, ⟨0, 1, .Upper⟩] : List Choice).foldl
        (fun a c => satAdd a c.max) 0
    ∧ (⟨2, ⟨[⟨1, 1, .Custom ['A']⟩, ⟨0, 1, .Upper⟩]⟩⟩ : PasswordSpec).generate
        ⟨fun _ => 0, 0⟩ = some (some ['A', 'A'])
    ∧ classCount .Upper ['A', 'A'] = 2 := by
  exact ⟨by decide, by decide, by rfl, by decide⟩

/-- C5 amended: for every feasible PasswordSpec satisfying the data-model
invariants whose constraints' resolved character sets are in addition
pairwise disjoint, every constraint's class appears at most max times in
the generated password. -/
theorem c5_max_respect (s : PasswordSpec) (g : Rng)
    (hwf : ∀ c ∈ s.choices.choices, c.min ≤ c.max)
    (hne : ∀ c ∈ s.choices.choices, c.chars.to_charset ≠ [])
    (hmin : minSum s.choices.choices ≤ s.length)
    (hmax : s.length ≤ s.choices.choices.foldl (fun a c => satAdd a c.max) 0)
    (hdisj : s.choices.choices.Pairwise (fun a b => disjointCS a.chars b.chars)) :
    ∀ c0 ∈ s.choices.choices, ∃ pw, s.generate g = some (some pw) ∧
      classCount c0.chars pw ≤ c0.max := by
  obtain ⟨pw, h1, _, _, h4⟩ := generate_master s g hwf hne hmin hmax
  exact fun c0 hc0 => ⟨pw, h1, h4 hdisj c0 hc0⟩

/-- Witness for the amended C5 at a concrete disjoint-class spec. -/
theorem c5_max_respect_witness :
    ∃ pw, (⟨3, ⟨[⟨1, 2, .Upper⟩, ⟨1, 2, .Number⟩]⟩⟩ : PasswordSpec).generate
        ⟨fun _ => 0, 0⟩ = some (some pw) ∧ classCount .Upper pw ≤ 2 :=
  c5_max_respect ⟨3, ⟨[⟨1, 2, .Upper⟩, ⟨1, 2, .Number⟩]⟩⟩ ⟨fun _ => 0, 0⟩
    (by decide) (by decide) (by decide) (by decide) (by decide)
    ⟨1, 2, .Upper⟩ (by decide)

/-- The four textual interval forms, written from the claim's words
(amended by the trim and the usize range of the numerals): a decimal
numeral N is the interval N to N, a numeral followed by a trailing plus
is N to usize::MAX, a numeral followed by a trailing minus is 0 to N, and
two numerals around an interior minus are A to B when A ≤ B and a
BadBounds error when A > B; every other input is an ImproperFormat
error. The numeral is the maximal leading digit run; parseUsize demands
it be non-empty and fit in usize. -/
def claimIntervalCore (t : List Char) : Except IntervalParseError Interval :=
  match t.dropWhile Char.isDigit with
  | [] =>
      match parseUsize (t.takeWhile Char.isDigit) with
      | some n => .ok ⟨n, n⟩
      | none => .error (.ImproperFormat t)
  | ['+'] =>
      match parseUsize (t.takeWhile Char.isDigit) with
      | some n => .ok ⟨n, USIZE_MAX⟩
      | none => .error (.ImproperFormat t)
  | ['-'] =>
      match parseUsize (t.takeWhile Char.isDigit) with
      | some n => .ok ⟨0, n⟩
      | none => .error (.ImproperFormat t)
  | '-' :: b :: bs =>
      if (b :: bs).all Char.isDigit then
        match parseUsize (t.takeWhile Char.isDigit), parseUsize (b :: bs) with
        | some a, some c => if a ≤ c then .ok ⟨a, c⟩ else .error (.BadBounds a c)
        | _, _ => .error (.ImproperFormat t)
      else .error (.ImproperFormat t)
  | _ => .error (.ImproperFormat t)

/-- An ASCII digit occupies one UTF-8 byte. -/
theorem digit_utf8Size (c : Char) (h : c.isDigit = true) : c.utf8Size = 1 := by
  unfold Char.utf8Size
  unfold Char.isDigit at h
  simp only [Bool.and_eq_true, decide_eq_true_eq] at h
  rw [if_pos]
  exact UInt32.le_trans h.2 (by decide)

/-- Byte length distributes over append. -/
theorem byteLen_append (a b : List Char) : byteLen (a ++ b) = byteLen a + byteLen b := by
  simp [byteLen]

/-- Byte length of a cons. -/
theorem byteLen_cons (c : Char) (r : List Char) :
    byteLen (c :: r) = c.utf8Size + byteLen r := by
  simp [byteLen]

/-- A digit run has as many bytes as characters. -/
theorem byteLen_digits (ds : List Char) (h : ∀ c ∈ ds, c.isDigit = true) :
    byteLen ds = ds.length := by
  induction ds with
  | nil => rfl
  | cons c r ih =>
      rw [byteLen_cons, digit_utf8Size c (h c (by simp)),
        ih (fun x hx => h x (by simp [hx]))]
      simp [Nat.add_comm]

/-- A non-empty string has a positive byte length. -/
theorem byteLen_pos (u : List Char) (h : u ≠ []) : 0 < byteLen u := by
  cases u with
  | nil => exact absurd rfl h
  | cons c r =>
      rw [byteLen_cons]
      have := Char.utf8Size_pos c
      omega

/-- The first character surviving dropWhile fails the predicate. -/
theorem dropWhile_head_false {p : Char → Bool} :
    ∀ {l : List Char} {c : Char} {r : List Char},
      l.dropWhile p = c :: r → p c = false := by
  intro l
  induction l with
  | nil => intro c r h; simp at h
  | cons a t ih =>
      intro c r h
      by_cases ha : p a = true
      · rw [List.dropWhile_cons_of_pos ha] at h
        exact ih h
      · rw [List.dropWhile_cons_of_neg ha] at h
        have : a = c := (List.cons.injEq _ _ _ _ ▸ h).1
        rw [← this]
        exact Bool.not_eq_true _ ▸ ha

/-- The exact-state scanner consumes the maximal digit prefix, pushing it
onto the first numeral. -/
theorem intervalScan_eat_digits (t : List Char) :
    ∀ (i b : Nat) (first second : List Char),
    intervalScan t i b first second .exact =
      intervalScan (t.dropWhile Char.isDigit) (i + (t.takeWhile Char.isDigit).length) b
        (first ++ t.takeWhile Char.isDigit) second .exact := by
  induction t with
  | nil => intro i b first second; simp
  | cons c r ih =>
      intro i b first second
      by_cases hc : c.isDigit = true
      · rw [List.dropWhile_cons_of_pos hc, List.takeWhile_cons_of_pos hc]
        show intervalScan (c :: r) i b first second .exact = _
        have hstep : intervalScan (c :: r) i b first second .exact =
            intervalScan r (i + 1) b (first ++ [c]) second .exact := by
          simp only [intervalScan]
          rw [if_pos hc]
        rw [hstep, ih (i + 1) b (first ++ [c]) second]
        have h1 : i + 1 + (r.takeWhile Char.isDigit).length =
            i + (c :: r.takeWhile Char.isDigit).length := by simp; omega
        have h2 : (first ++ [c]) ++ r.takeWhile Char.isDigit =
            first ++ c :: r.takeWhile Char.isDigit := by simp
        rw [h1, h2]
      · rw [List.dropWhile_cons_of_neg hc, List.takeWhile_cons_of_neg hc]
        simp

/-- The range-state scanner accepts a pure digit tail into the second
numeral and stops at the end of the input. -/
theorem intervalScan_range_digits (bs : List Char) :
    ∀ (i b : Nat) (first second : List Char), bs.all Char.isDigit = true →
    intervalScan bs i b first second .range = some (first, second ++ bs, .range) := by
  induction bs with
  | nil => intro i b first second _; simp [intervalScan]
  | cons c r ih =>
      intro i b first second hall
      simp only [List.all_cons, Bool.and_eq_true] at hall
      have hstep : intervalScan (c :: r) i b first second .range =
          intervalScan r (i + 1) b first (second ++ [c]) .range := by
        simp only [intervalScan]
        rw [if_pos hall.1]
      rw [hstep, ih (i + 1) b first (second ++ [c]) hall.2]
      simp

/-- The range-state scanner rejects any non-digit. -/
theorem intervalScan_range_not_digits (bs : List Char) :
    ∀ (i b : Nat) (first second : List Char), bs.all Char.isDigit = false →
    intervalScan bs i b first second .range = none := by
  induction bs with
  | nil => intro i b first second h; simp at h
  | cons c r ih =>
      intro i b first second hall
      by_cases hc : c.isDigit = true
      · simp only [List.all_cons, hc, Bool.true_and] at hall
        have hstep : intervalScan (c :: r) i b first second .range =
            intervalScan r (i + 1) b first (second ++ [c]) .range := by
          simp only [intervalScan]
          rw [if_pos hc]
        rw [hstep]
        exact ih (i + 1) b first (second ++ [c]) hall
      · simp only [intervalScan]
        rw [if_neg hc]

/-- The scanner body of Interval::from_str computes exactly the
four-form classification on its (already trimmed) input. -/
theorem fromStrCore_eq_claim (t : List Char) :
    Interval.fromStrCore t = claimIntervalCore t := by
  have hsplit : t.takeWhile Char.isDigit ++ t.dropWhile Char.isDigit = t :=
    List.takeWhile_append_dropWhile Char.isDigit t
  have hds : ∀ c ∈ t.takeWhile Char.isDigit, c.isDigit = true :=
    fun c hc => List.mem_takeWhile_imp hc
  have hdsb : byteLen (t.takeWhile Char.isDigit) = (t.takeWhile Char.isDigit).length :=
    byteLen_digits _ hds
  have hbtotal : byteLen t =
      (t.takeWhile Char.isDigit).length + byteLen (t.dropWhile Char.isDigit) := by
    conv_lhs => rw [← hsplit]
    rw [byteLen_append, hdsb]
  have hscan := intervalScan_eat_digits t 0 (byteLen t) [] []
  simp only [List.nil_append, Nat.zero_add] at hscan
  unfold Interval.fromStrCore claimIntervalCore
  rw [hscan]
  cases hrest : t.dropWhile Char.isDigit with
  | nil =>
      simp only [intervalScan]
  | cons c r =>
      have hcnd : c.isDigit = false := dropWhile_head_false hrest
      rw [hrest, byteLen_cons] at hbtotal
      by_cases hplus : c = '+'
      · subst hplus
        rw [show ('+' : Char).utf8Size = 1 from by decide] at hbtotal
        cases r with
        | nil =>
            have hcond : (t.takeWhile Char.isDigit).length + 1 = byteLen t := by
              rw [hbtotal]
              rfl
            have hstep : intervalScan ['+'] ((t.takeWhile Char.isDigit).length)
                (byteLen t) (t.takeWhile Char.isDigit) [] .exact =
                some (t.takeWhile Char.isDigit, [], .atLeast) := by
              simp only [intervalScan]
              rw [if_neg (by simp [hcnd]), if_pos (by simp [hcond])]
            rw [hstep]
            rfl
        | cons r0 rr =>
            have hbr : 0 < byteLen (r0 :: rr) := byteLen_pos _ (by simp)
            have hcond : ¬ ((t.takeWhile Char.isDigit).length + 1 = byteLen t) := by
              omega
            have hstep : intervalScan ('+' :: r0 :: rr)
                ((t.takeWhile Char.isDigit).length) (byteLen t)
                (t.takeWhile Char.isDigit) [] .exact = none := by
              simp only [intervalScan]
              rw [if_neg (by simp [hcnd]), if_neg (by simp [hcond]),
                if_neg (by simp), if_neg (by simp)]
            rw [hstep]
            rfl
      · by_cases hminus : c = '-'
        · subst hminus
          rw [show ('-' : Char).utf8Size = 1 from by decide] at hbtotal
          cases r with
          | nil =>
              have hcond : (t.takeWhile Char.isDigit).length + 1 = byteLen t := by
                rw [hbtotal]
                rfl
              have hstep : intervalScan ['-'] ((t.takeWhile Char.isDigit).length)
                  (byteLen t) (t.takeWhile Char.isDigit) [] .exact =
                  some (t.takeWhile Char.isDigit, [], .atMost) := by
                simp only [intervalScan]
                rw [if_neg (by simp [hcnd]), if_neg (by simp), if_pos (by simp [hcond])]
              rw [hstep]
              rfl
          | cons r0 rr =>
              have hbr : 0 < byteLen (r0 :: rr) := byteLen_pos _ (by simp)
              have hcond : ¬ ((t.takeWhile Char.isDigit).length + 1 = byteLen t) := by
                omega
              have hstep : intervalScan ('-' :: r0 :: rr)
                  ((t.takeWhile Char.isDigit).length) (byteLen t)
                  (t.takeWhile Char.isDigit) [] .exact =
                  intervalScan (r0 :: rr) ((t.takeWhile Char.isDigit).length + 1)
                    (byteLen t) (t.takeWhile Char.isDigit) [] .range := by
                simp only [intervalScan]
                rw [if_neg (by simp [hcnd]), if_neg (by simp [hcond]),
                  if_neg (by simp [hcond]), if_pos (by simp)]
              rw [hstep]
              cases hall : (r0 :: rr).all Char.isDigit with
              | true =>
                  rw [intervalScan_range_digits (r0 :: rr) _ _ _ [] hall]
                  simp only [List.nil_append]
                  cases hp : parseUsize (t.takeWhile Char.isDigit) <;>
                    cases hq : parseUsize (r0 :: rr) <;>
                      simp [hall, hp, hq]
              | false =>
                  rw [intervalScan_range_not_digits (r0 :: rr) _ _ _ [] hall]
                  simp [hall]
        · -- any other first non-digit character is a format error
          have hstep : intervalScan (c :: r) ((t.takeWhile Char.isDigit).length)
              (byteLen t) (t.takeWhile Char.isDigit) [] .exact = none := by
            simp only [intervalScan]
            rw [if_neg (by simp [hcnd]), if_neg (by simp [hplus]),
              if_neg (by simp [hminus]), if_neg (by simp [hminus])]
          rw [hstep]
          split <;> simp_all

/-- Counterexample to C7 as stated: the input with a leading space parses
successfully (from_str trims before scanning), though it is none of the
four textual forms, which the claim says must fail with ImproperFormat. -/
theorem c7_interval_counterexample :
    Interval.fromStr ((" 3").data) = .ok ⟨3, 3⟩
    ∧ claimIntervalCore ((" 3").data) =
        .error (.ImproperFormat ((" 3").data))
    ∧ Interval.fromStr ((" 3").data) ≠ claimIntervalCore ((" 3").data) := by
  refine ⟨by rfl, by rfl, ?_⟩
  intro h
  rw [show Interval.fromStr ((" 3").data) = .ok ⟨3, 3⟩ from rfl] at h
  rw [show claimIntervalCore ((" 3").data) =
      .error (.ImproperFormat ((" 3").data)) from rfl] at h
  exact Except.noConfusion h

/-- C7 amended: after trimming surrounding whitespace, Interval::from_str
accepts exactly the four textual forms over usize-ranged decimal
numerals — N gives the interval N to N, N+ gives N to usize::MAX,
N- gives 0 to N, A-B gives A to B when A ≤ B and BadBounds when
A > B — and every other input yields an ImproperFormat error, as the
equality with the four-form classifier states, for every input string. -/
theorem c7_interval_fromstr_characterization (s : List Char) :
    Interval.fromStr s = claimIntervalCore (rustTrim s) :=
  fromStrCore_eq_claim (rustTrim s)

end PantsGen
